import Mathlib

/-!
A verification development for the Alconna command-parsing library,
centred on `arclet/alconna/arparma.py` (the `Arparma` result object:
dotted-path queries, the behavior pipeline, `call`, `find`,
`encapsulate_result`) and `arclet/alconna/analysis/base.py`
(`_compile_opts` and `default_params_parser`).

Conventions of the embedding:
* Python `dict` values are insertion-ordered association lists
  `List (String × α)`; `{**a, **b}` is `mergeDict a b`.
* A dotted path `"a.b.c"` is modelled by its segment list
  `["a", "b", "c"]` (Python computes it with `path.split('.')`).
* Raised exceptions are modelled with `Except`.
* The result records `OptionResult` / `SubcommandResult` live in
  `model.py`, which is not part of the sources at hand; they are
  modelled from the spec (see their doc comments).
-/

namespace Alconna

instance {ε α : Type} [DecidableEq ε] [DecidableEq α] :
    DecidableEq (Except ε α) := fun
  | .ok x, .ok y =>
    if h : x = y then .isTrue (by rw [h])
    else .isFalse (by intro hh; cases hh; exact h rfl)
  | .ok _, .error _ => .isFalse (by intro h; cases h)
  | .error _, .ok _ => .isFalse (by intro h; cases h)
  | .error e, .error f =>
    if h : e = f then .isTrue (by rw [h])
    else .isFalse (by intro hh; cases hh; exact h rfl)

/-! ### Python-dict layer -/

/-- `d.get(k)`: first binding of `k` in the association list. -/
def dget {α : Type} : List (String × α) → String → Option α
  | [], _ => none
  | (k', v') :: rest, k => if k' = k then some v' else dget rest k

/-- `k in d`. -/
def dmem {α : Type} (d : List (String × α)) (k : String) : Bool :=
  (dget d k).isSome

/-- `d[k] = v`: replace the first binding of `k` in place, else append. -/
def dset {α : Type} : List (String × α) → String → α → List (String × α)
  | [], k, v => [(k, v)]
  | (k', v') :: rest, k, v =>
    if k' = k then (k, v) :: rest else (k', v') :: dset rest k v

/-- `d.setdefault(k, v)`. -/
def dsetdefault {α : Type} (d : List (String × α)) (k : String) (v : α) :
    List (String × α) :=
  if dmem d k then d else d ++ [(k, v)]

/-- `{**a, **b}`: `a` updated with `b`'s bindings, `b` winning. -/
def mergeDict {α : Type} (a b : List (String × α)) : List (String × α) :=
  b.foldl (fun acc kv => dset acc kv.1 kv.2) a

/-! ### Result records (`model.py`) and the `Arparma` data -/

/-- A parsed value (Python `Any`), including the `nepattern.Empty`
sentinel that `Arparma.find` compares against. -/
inductive Val where
  | str (s : String)
  | int (n : Int)
  | bool (b : Bool)
  | empty
  | pynone
  deriving DecidableEq, Repr

/-- Modelled from the spec: `model.py` is not among the sources.
"OptionResult … structured records holding … the dict of arg name →
parsed value"; an option result stores its `value` and its `args`. -/
structure OptionResult where
  value : Val
  args : List (String × Val)
  deriving DecidableEq, Repr

/-- Modelled from the spec: `model.py` is not among the sources.
A subcommand result additionally owns its nested option results. -/
structure SubcommandResult where
  value : Val
  args : List (String × Val)
  options : List (String × OptionResult)
  deriving DecidableEq, Repr

/-- The behavior-protocol exceptions of `exceptions.py` used by
`Arparma.execute`. -/
inductive BehaveException where
  | cancelled
  | outBounds (data : String)
  deriving DecidableEq, Repr

/-- `Arparma.error_info: str | BaseException | type[BaseException]`,
restricted to the shapes the verified operations produce. -/
inductive ErrorInfo where
  | text (s : String)
  | exc (e : BehaveException)
  deriving DecidableEq, Repr

/-- The `Arparma` dataclass (`arparma.py`).  `header_match` and
`error_data` are omitted: none of the verified operations read them.
`origin` is kept as a string stand-in for `TDataCollection`. -/
structure Arparma where
  source : String
  origin : String
  matched : Bool := false
  errorInfo : ErrorInfo := .text ""
  mainArgs : List (String × Val) := []
  otherArgs : List (String × Val) := []
  options : List (String × OptionResult) := []
  subcommands : List (String × SubcommandResult) := []
  deriving DecidableEq, Repr

/-- `Arparma.all_matched_args`: `{**self.main_args, **self.other_args}`. -/
def Arparma.allMatchedArgs (r : Arparma) : List (String × Val) :=
  mergeDict r.mainArgs r.otherArgs

/-- `Arparma.components`: `{**self.options, **self.subcommands}` — only
its key set is consulted (`prefix in self.components`). -/
def Arparma.componentsMem (r : Arparma) (k : String) : Bool :=
  dmem r.options k || dmem r.subcommands k

/-! ### `Arparma.__require__` and `Arparma.query` -/

/-- The first component of `__require__`'s return value
(`dict[str, Any] | OptionResult | SubcommandResult | None`). -/
inductive QSource where
  | nul
  | args (d : List (String × Val))
  | opts (d : List (String × OptionResult))
  | subs (d : List (String × SubcommandResult))
  | optRes (o : OptionResult)
  | subRes (s : SubcommandResult)
  deriving DecidableEq, Repr

/-- The second component of `__require__`'s return value.  It is a
string, except on the `_handle_opt` path where
`_end := _parts.pop(0) == "value"` binds the *comparison result*
(Python's walrus operator has lower precedence than `==`), so the
endpoint there is a `bool`. -/
inductive Endpoint where
  | str (s : String)
  | bool (b : Bool)
  deriving DecidableEq, Repr

/-- Python truthiness of the endpoint (`if endpoint else …`). -/
def Endpoint.truthy : Endpoint → Bool
  | .str s => s ≠ ""
  | .bool b => b

/-- Python `==` between the endpoint and a string literal: a `bool`
compared with a `str` is never equal. -/
def Endpoint.eqStr : Endpoint → String → Bool
  | .str s, t => s = t
  | .bool _, _ => false

/-- Exceptions raised by `__require__`: the `RuntimeError` with the
`arpamar_ambiguous_name` message (the spec's `AmbiguousQuery`), and
`IndexError` for a `pop` from an empty segment list. -/
inductive QueryError where
  | ambiguous (target : String)
  | indexError
  deriving DecidableEq, Repr

/-- `Arparma.__require__._handle_opt` after its `_pf == "options"`
rewrite.  Faithful to the source, including the operator-precedence
slip: `if _end := _parts.pop(0) == "value"` binds `_end` to the boolean
`_parts.pop(0) == "value"`, so the subsequent `_end == 'args'` test
compares a `bool` with a `str` and is always false. -/
def handleOptCore (pf : String) (ps : List String)
    (opts : List (String × OptionResult)) :
    Except QueryError (QSource × Endpoint) :=
  match ps with
  | [] => .ok (.opts opts, .str pf)
  | seg :: ps' =>
    match dget opts pf with
    | none => .ok (.opts opts, .str pf)
    | some src =>
      let e : Endpoint := .bool (seg = "value")
      if e.truthy then .ok (.optRes src, e)
      else if e.eqStr "args" then
        match ps' with
        | [] => .ok (.optRes src, e)
        | nxt :: _ => .ok (.args src.args, .str nxt)
      else .ok (.args src.args, e)

/-- `Arparma.__require__._handle_opt`: when called with `_pf ==
"options"` the real key is popped from `_parts` first. -/
def handleOpt (pf : String) (ps : List String)
    (opts : List (String × OptionResult)) :
    Except QueryError (QSource × Endpoint) :=
  if pf = "options" then
    match ps with
    | [] => .error .indexError
    | pf' :: ps' => handleOptCore pf' ps' opts
  else handleOptCore pf ps opts

/-- The subcommand branch of `__require__` (after the
`prefix == "subcommands"` pop). -/
def subRequire (r : Arparma) (pf : String) (ps : List String) :
    Except QueryError (QSource × Endpoint) :=
  match ps with
  | [] => .ok (.subs r.subcommands, .str pf)
  | endSeg :: ps' =>
    match dget r.subcommands pf with
    | none => .ok (.subs r.subcommands, .str pf)
    | some src =>
      if endSeg = "value" then .ok (.subRes src, .str endSeg)
      else if endSeg = "args" then
        match ps' with
        | [] => .ok (.subRes src, .str endSeg)
        | nxt :: _ => .ok (.args src.args, .str nxt)
      else if endSeg = "options" ∧ (dmem src.options endSeg ∨ ps' = []) then
        .error (.ambiguous (pf ++ "." ++ endSeg))
      else if endSeg = "options" ∨ dmem src.options endSeg then
        handleOpt endSeg ps' src.options
      else .ok (.args src.args, .str endSeg)

/-- The `$main` / `$other` rewrite.  The source uses
`prefix.replace("$main", "main_args").replace("$other", "other_args")`,
a substring replacement; it is modelled by the exact-match conditional,
which agrees with it on every input whose query outcome the replacement
can influence (a partial substring hit yields a name that is neither
`main_args` nor `other_args`, so both fall to the `(None, prefix)`
return and the query yields the default). -/
def replaceMainOther (pfx : String) : String :=
  if pfx = "$main" then "main_args" else if pfx = "$other" then "other_args" else pfx

/-- `Arparma.__require__` on the split segment list. -/
def Arparma.require (r : Arparma) (parts : List String) :
    Except QueryError (QSource × Endpoint) :=
  match parts with
  | [] => .error .indexError
  | [part] =>
    if dmem r.mainArgs part then .ok (.args r.mainArgs, .str part)
    else if dmem r.otherArgs part then .ok (.args r.otherArgs, .str part)
    else if dmem r.options part then .ok (.opts r.options, .str part)
    else if dmem r.subcommands part then .ok (.subs r.subcommands, .str part)
    else if part = "options" then .ok (.opts r.options, .str "")
    else if part = "subcommands" then .ok (.subs r.subcommands, .str "")
    else if part = "main_args" then .ok (.args r.mainArgs, .str "")
    else if part = "other_args" then .ok (.args r.otherArgs, .str "")
    else if part = "args" then .ok (.args r.allMatchedArgs, .str "")
    else .ok (.nul, .str part)
  | pfx :: seg :: rest =>
    -- Two or more segments: every `parts.pop(0)` below is in bounds.
    if (pfx = "options" ∨ pfx = "subcommands") ∧ r.componentsMem pfx then
      .error (.ambiguous pfx)
    else if pfx = "options" ∨ dmem r.options pfx then
      handleOpt pfx (seg :: rest) r.options
    else if pfx = "subcommands" ∨ dmem r.subcommands pfx then
      if pfx = "subcommands" then subRequire r seg rest
      else subRequire r pfx (seg :: rest)
    else
      let pfx2 := replaceMainOther pfx
      if pfx2 = "main_args" then .ok (.args r.mainArgs, .str seg)
      else if pfx2 = "other_args" then .ok (.args r.otherArgs, .str seg)
      else .ok (.nul, .str pfx2)

/-- What `Arparma.query` can return. -/
inductive QueryResult where
  | val (v : Val)
  | optRes (o : OptionResult)
  | subRes (s : SubcommandResult)
  | argsMap (d : List (String × Val))
  | optsMap (d : List (String × OptionResult))
  | subsMap (d : List (String × SubcommandResult))
  deriving DecidableEq, Repr

/-- `source.get(endpoint, default)`.  On the dicts this is a plain
lookup (a `bool` key from the walrus slip never matches a string key).
On the result records, `.get` is not in the sources (`model.py`);
modelled from the spec: "The final segment `.value` unwraps an
OptionResult's value; `.args` returns its args dict". -/
def QSource.get (src : QSource) (e : Endpoint) (default : QueryResult) :
    QueryResult :=
  match src, e with
  | .args d, .str s => (dget d s).elim default .val
  | .opts d, .str s => (dget d s).elim default .optRes
  | .subs d, .str s => (dget d s).elim default .subRes
  | .optRes o, .str s =>
    if s = "value" then .val o.value
    else if s = "args" then .argsMap o.args
    else default
  | .subRes sc, .str s =>
    if s = "value" then .val sc.value
    else if s = "args" then .argsMap sc.args
    else default
  | _, .bool _ => default
  | .nul, _ => default

/-- `MappingProxyType(source)` — the read-only view of the whole dict
(a result record as source never reaches this branch, every endpoint
paired with one is truthy; those arms return the record itself). -/
def QSource.proxy : QSource → QueryResult
  | .args d => .argsMap d
  | .opts d => .optsMap d
  | .subs d => .subsMap d
  | .optRes o => .optRes o
  | .subRes s => .subRes s
  | .nul => .argsMap []

/-- `Arparma.query(path, default)` over the split segment list. -/
def Arparma.query (r : Arparma) (parts : List String)
    (default : QueryResult) : Except QueryError QueryResult :=
  match r.require parts with
  | .error e => .error e
  | .ok (src, endp) =>
    match src with
    | .nul => .ok default
    | _ => if endp.truthy then .ok (src.get endp default) else .ok src.proxy

/-- `Arparma.find(path)`: `self.query(path, Empty) != Empty`. -/
def Arparma.find (r : Arparma) (parts : List String) :
    Except QueryError Bool :=
  (r.query parts (.val .empty)).map fun res => decide (res ≠ .val .empty)

/-! ### `Arparma.call` -/

/-- A callable passed to `Arparma.call`.  Modelled from the spec:
`get_signature` (`util.py`, not among the sources) "introspects the
target's parameter names", so a target carries its parameter-name list
and its body, a function of the keyword arguments it is invoked with. -/
structure Target where
  params : List String
  fn : List (String × Val) → Val

/-- `Arparma.call(target, **additional)`: on `matched`, invoke the
target with the bindings of `{**self.all_matched_args, **additional}`
whose keys are among the target's parameter names; otherwise
`raise RuntimeError`. -/
def Arparma.call (r : Arparma) (t : Target)
    (additional : List (String × Val)) : Except String Val :=
  if r.matched then
    .ok (t.fn ((mergeDict r.allMatchedArgs additional).filter
      fun kv => t.params.contains kv.1))
  else .error "RuntimeError"

/-! ### Behaviors and `Arparma.execute` -/

/-- The effect of one `ArparmaBehavior.operate(self)` call: a normal
return (with the possibly mutated result, modelled by state passing),
`raise BehaveCancelled`, or `raise OutBoundsBehave(data)`. -/
inductive OperateOutcome where
  | ok (r : Arparma)
  | cancelled
  | outBounds (data : String)

/-- An `ArparmaBehavior` (`components/behavior.py`): a `requires` list
of behaviors and an `operate` action. -/
inductive Behavior where
  | mk (requires : List Behavior) (operate : Arparma → OperateOutcome)

def Behavior.requires : Behavior → List Behavior
  | .mk rs _ => rs

def Behavior.operate : Behavior → Arparma → OperateOutcome
  | .mk _ f => f

mutual
/-- `requirement_handler` (`components/behavior.py`): flatten a
behavior's `requires` closure depth-first, the behavior itself last.
(The `lru_cache` on it only memoises; it does not change the value.) -/
def requirementHandler : Behavior → List Behavior
  | .mk rs f => requirementHandlerList rs ++ [.mk rs f]

/-- `result.extend(requirement_handler(i))` over a `requires` list. -/
def requirementHandlerList : List Behavior → List Behavior
  | [] => []
  | b :: bs => requirementHandler b ++ requirementHandlerList bs
end

/-- `Arparma._fail(exc)`: a fresh failed result carrying the same
`_source` and `origin`. -/
def Arparma.fail (r : Arparma) (e : BehaveException) : Arparma :=
  { source := r.source, origin := r.origin, matched := false,
    errorInfo := .exc e }

/-- The `for b in exc_behaviors` loop of `Arparma.execute`:
`BehaveCancelled` is swallowed (`continue`), `OutBoundsBehave e`
returns `self._fail(e)` without running the remaining behaviors. -/
def execLoop (r : Arparma) : List Behavior → Arparma
  | [] => r
  | b :: bs =>
    match b.operate r with
    | .ok r' => execLoop r' bs
    | .cancelled => execLoop r bs
    | .outBounds e => r.fail (.outBounds e)

/-- `Arparma.execute(behaviors)`.  `self.source.behaviors[1:]` reaches
into the command registry (`manager.py` / `core.py`, not among the
sources); the command's own behavior list is therefore taken as the
`sourceBehaviors` argument and the slicing and concatenation follow the
source: `behaviors := (self.source.behaviors[1:] + (behaviors or []))`,
returning `self` unchanged when that list is empty. -/
def Arparma.execute (r : Arparma) (sourceBehaviors behaviors : List Behavior) :
    Arparma :=
  let bs := sourceBehaviors.drop 1 ++ behaviors
  match bs with
  | [] => r
  | _ => execLoop r (requirementHandlerList bs)

/-! ### `Arparma.encapsulate_result` -/

/-- `Arparma.encapsulate_result(main_args, options, subcommands)`:
store the three dicts and fold every option's args, every subcommand's
args and every subcommand option's args into `other_args` with
`self.other_args = {**self.other_args, **v.args}`. -/
def Arparma.encapsulateResult (r : Arparma) (mainArgs : List (String × Val))
    (options : List (String × OptionResult))
    (subcommands : List (String × SubcommandResult)) : Arparma :=
  let r := { r with mainArgs := mainArgs, options := options,
                    subcommands := subcommands }
  let other := options.foldl (fun acc kv => mergeDict acc kv.2.args) r.otherArgs
  let other := subcommands.foldl
    (fun acc kv =>
      let acc := mergeDict acc kv.2.args
      kv.2.options.foldl (fun acc2 kv2 => mergeDict acc2 kv2.2.args) acc)
    other
  { r with otherArgs := other }

/-! ### `analysis/base.py`: `_compile_opts` and `default_params_parser`

The node classes (`base.py`: `Option`, `Subcommand`, `Sentence`) are
not among the sources; modelled from the spec: a node carries `name`,
`aliases` (including the name), `priority`, the `requires` word chain
and `separators`; a `Subcommand` additionally owns `options`, `nargs`
(the length of its own `Args`) and the derived `sub_params` table and
`sub_part_len` bound, both filled in by the compiler. -/

/-- Modelled from the spec: an `Option` node as consumed by
`default_params_parser`. -/
structure OptNode where
  name : String
  aliases : List String
  priority : Int
  requires : List String
  separators : List String
  deriving DecidableEq, Repr

/-- A value of a subcommand's `sub_params` table: a list of options
sharing an alias, or a synthesised `Sentence`. -/
inductive SubParam where
  | opts (l : List OptNode)
  | sentence (name : String)
  deriving DecidableEq, Repr

/-- Modelled from the spec: a `Subcommand` node.  `nargs` is the length
of its own argument list (`1 if opts.nargs else 0` tests it as an
integer); `subParams` / `subPartLen` are the compiler-filled fields. -/
structure SubNode where
  name : String
  options : List OptNode
  requires : List String
  separators : List String
  nargs : Nat
  subParams : List (String × SubParam)
  subPartLen : Nat
  deriving DecidableEq, Repr

/-- A value of the analyser's `command_params` table. -/
inductive Param where
  | opts (l : List OptNode)
  | sub (s : SubNode)
  | sentence (name : String)
  deriving DecidableEq, Repr

/-- A top-level entry of `alconna.options`. -/
inductive TopNode where
  | opt (o : OptNode)
  | sub (s : SubNode)
  deriving DecidableEq, Repr

def TopNode.requires : TopNode → List String
  | .opt o => o.requires
  | .sub s => s.requires

def TopNode.separators : TopNode → List String
  | .opt o => o.separators
  | .sub s => s.separators

/-- Insert an option into a priority-descending list, after every
option of greater-or-equal priority (what one round of Python's stable
`list.sort(key=lambda x: x.priority, reverse=True)` does to the element
appended last). -/
def insertDesc (o : OptNode) : List OptNode → List OptNode
  | [] => [o]
  | x :: xs => if x.priority < o.priority then o :: x :: xs else x :: insertDesc o xs

/-- `li.sort(key=lambda x: x.priority, reverse=True)`: Python's sort is
stable, modelled as the stable insertion sort that inserts each element
in turn after its greater-or-equal predecessors. -/
def sortDesc (l : List OptNode) : List OptNode :=
  l.foldl (fun acc x => insertDesc x acc) []

/-- One alias step of `_compile_opts`: if the alias maps to a
(non-empty, by Python truthiness) list, append the option and re-sort;
otherwise overwrite with the one-element list. -/
def compileOptsStep (opt : OptNode) (d : List (String × Param))
    (al : String) : List (String × Param) :=
  match dget d al with
  | some (.opts li) =>
    if li = [] then dset d al (.opts [opt])
    else dset d al (.opts (sortDesc (li ++ [opt])))
  | _ => dset d al (.opts [opt])

/-- `_compile_opts(option, data)` on the top-level `command_params`. -/
def compileOptsCmd (opt : OptNode) (d : List (String × Param)) :
    List (String × Param) :=
  opt.aliases.foldl (compileOptsStep opt) d

/-- One alias step of `_compile_opts` on a `sub_params` table. -/
def compileOptsSubStep (opt : OptNode) (d : List (String × SubParam))
    (al : String) : List (String × SubParam) :=
  match dget d al with
  | some (.opts li) =>
    if li = [] then dset d al (.opts [opt])
    else dset d al (.opts (sortDesc (li ++ [opt])))
  | _ => dset d al (.opts [opt])

/-- `_compile_opts(sub_opts, opts.sub_params)`. -/
def compileOptsSub (opt : OptNode) (d : List (String × SubParam)) :
    List (String × SubParam) :=
  opt.aliases.foldl (compileOptsSubStep opt) d

/-- `data.setdefault(k, Sentence(name=k))` over a requirement chain,
on `command_params`. -/
def addSentencesCmd (reqs : List String) (d : List (String × Param)) :
    List (String × Param) :=
  reqs.foldl (fun d k => dsetdefault d k (.sentence k)) d

/-- `data.setdefault(k, Sentence(name=k))` over a requirement chain,
on a `sub_params` table. -/
def addSentencesSub (reqs : List String) (d : List (String × SubParam)) :
    List (String × SubParam) :=
  reqs.foldl (fun d k => dsetdefault d k (.sentence k)) d

/-- Python-set membership update: `s.update(xs)` / `s.add(x)`; the set
is modelled as a duplicate-free insertion list, only membership is
consulted. -/
def sadd (s : List String) (x : String) : List String :=
  if x ∈ s then s else s ++ [x]

def supdate (s : List String) (xs : List String) : List String :=
  xs.foldl sadd s

/-- The analyser state touched by `default_params_parser`.  Its
construction lives in `analyser.py` (not among the sources), so the
pre-compilation field values are left abstract. -/
structure Analyser where
  commandParams : List (String × Param)
  paramIds : List String
  separators : List String
  defaultSeparate : Bool
  needMainArgs : Bool
  partLen : Nat

/-- The `sub_params` / `sub_require_len` half of the subcommand inner
loop of `default_params_parser`: for each `sub_opts` run
`_compile_opts` into `sub_params`, then on a non-empty `requires` bump
`sub_require_len` and synthesise the sentences.  (The loop also updates
`param_ids`; that update touches neither component computed here, so it
is split into `processSubIds`.) -/
def processSubCore (s : SubNode) : List (String × SubParam) × Nat :=
  s.options.foldl
    (fun (dm : List (String × SubParam) × Nat) so =>
      let d := compileOptsSub so dm.1
      if so.requires ≠ [] then
        (addSentencesSub so.requires d, max so.requires.length dm.2)
      else (d, dm.2))
    (s.subParams, 0)

/-- The `param_ids.update(sub_opts.aliases)` half of the subcommand
inner loop. -/
def processSubIds (s : SubNode) (ids : List String) : List String :=
  s.options.foldl (fun ids so => supdate ids so.aliases) ids

/-- The subcommand after its inner loop:
`sub_part_len = range(len(options) + (1 if nargs else 0) +
sub_require_len)`. -/
def subAfter (s : SubNode) : SubNode :=
  { s with subParams := (processSubCore s).1,
           subPartLen := s.options.length + (if s.nargs ≠ 0 then 1 else 0)
             + (processSubCore s).2 }

/-- One iteration of the `for opts in analyser.alconna.options` loop.
`nOpts` is `len(analyser.alconna.options)`; the `Nat` component threads
the loop-local `require_len`.  Inserting `command_params[opts.name] =
opts` stores a reference through which the subsequent in-place
mutations of the subcommand are visible, so the fully processed
subcommand is stored. -/
def processTop (nOpts : Nat) (st : Analyser × Nat) (node : TopNode) :
    (Analyser × Nat) × TopNode :=
  let a0 := st.1
  let a1 :=
    match node with
    | .opt o =>
      { a0 with commandParams := compileOptsCmd o a0.commandParams,
                paramIds := supdate a0.paramIds o.aliases }
    | .sub s =>
      { a0 with commandParams :=
                  dset a0.commandParams s.name (.sub (subAfter s)),
                paramIds := processSubIds s (sadd a0.paramIds s.name) }
  let node' :=
    match node with
    | .opt o => TopNode.opt o
    | .sub s => TopNode.sub (subAfter s)
  let a2 :=
    if ¬ node.separators.all (a1.separators.contains ·) then
      { a1 with defaultSeparate := false }
    else a1
  let a3 :=
    if node.requires ≠ [] then
      { a2 with paramIds := supdate a2.paramIds node.requires,
                commandParams := addSentencesCmd node.requires a2.commandParams }
    else a2
  let rl := if node.requires ≠ [] then max node.requires.length st.2 else st.2
  let a4 := { a3 with
    partLen := nOpts + (if a3.needMainArgs then 1 else 0) + rl }
  ((a4, rl), node')

/-- The full loop, also returning the processed node list (the
subcommands' `sub_params` / `sub_part_len` mutations). -/
def dppGo (nOpts : Nat) : Analyser × Nat → List TopNode →
    (Analyser × Nat) × List TopNode
  | st, [] => (st, [])
  | st, n :: rest =>
    let p := processTop nOpts st n
    let q := dppGo nOpts p.1 rest
    (q.1, p.2 :: q.2)

/-- `default_params_parser(analyser)` over the declared top-level
option list. -/
def defaultParamsParser (a : Analyser) (nodes : List TopNode) :
    Analyser × List TopNode :=
  let res := dppGo nodes.length ((a, 0)) nodes
  (res.1.1, res.2)

/-- The list a table entry must equal after `_compile_opts`
processes `opt` for an alias previously bound to the given entry:
Python truthiness sends an absent key, a non-list value and the empty
list to the fresh one-element list, a non-empty list to
append-and-stable-sort. -/
def newListFor (opt : OptNode) : Option Param → List OptNode
  | some (.opts li) => if li = [] then [opt] else sortDesc (li ++ [opt])
  | _ => [opt]

/-- The compiled alias-table invariant of the claim: every alias some
registered option declares is bound to a list, and every bound list is
exactly the declaring options in descending priority, ties in
registration order — i.e. the stable descending sort of the
registration-ordered sublist of declarers. -/
def CmdParamsInv (registered : List OptNode)
    (d : List (String × Param)) : Prop :=
  (∀ al : String, (∃ o ∈ registered, al ∈ o.aliases) →
    ∃ li, dget d al = some (.opts li)) ∧
  (∀ al li, dget d al = some (.opts li) →
    li = sortDesc (registered.filter fun o => decide (al ∈ o.aliases)))

/-- The `sub_params` component of one inner-loop iteration of
`default_params_parser`: `_compile_opts` into the table, then the
sentence synthesis when the sub-option has a requirement chain. -/
def subStep (d : List (String × SubParam)) (so : OptNode) :
    List (String × SubParam) :=
  if so.requires ≠ [] then addSentencesSub so.requires (compileOptsSub so d)
  else compileOptsSub so d

/-- `w` collides with no table entry a node's processing writes:
for an option it is none of the aliases, for a subcommand it is not the
name. -/
def notClaimedBy (w : String) : TopNode → Prop
  | .opt o => w ∉ o.aliases
  | .sub s => w ≠ s.name

instance (w : String) (n : TopNode) : Decidable (notClaimedBy w n) :=
  match n with
  | .opt o => inferInstanceAs (Decidable (w ∉ o.aliases))
  | .sub s => inferInstanceAs (Decidable (w ≠ s.name))

/-! ### Concrete instances used by witnesses and counterexamples -/

def wOpt : OptionResult := ⟨.str "ov", [("k", .int 1)]⟩

def wSub : SubcommandResult :=
  ⟨.str "sv", [("sk", .int 2)], [("w", ⟨.str "wv", [("wk", .int 3)]⟩)]⟩

/-- A result whose command declares both an option and a subcommand
literally named `foo`. -/
def wArp : Arparma :=
  { source := "cmd", origin := "raw", matched := true,
    options := [("foo", wOpt)], subcommands := [("foo", wSub)] }

/-- A result holding an option `foo` with a stored value and a
subcommand `bar` with a stored value. -/
def wArp2 : Arparma :=
  { source := "cmd", origin := "raw", matched := true,
    options := [("foo", ⟨.str "stored", []⟩)],
    subcommands := [("bar", ⟨.str "sv", [], []⟩)] }

/-- A result whose `main_args` stores a value under the empty name. -/
def wArpEmptyKey : Arparma :=
  { source := "c", origin := "", mainArgs := [("", .str "v")] }

/-- A result whose `main_args` stores the `Empty` sentinel under the
empty name. -/
def wArpEmptyVal : Arparma :=
  { source := "c", origin := "", mainArgs := [("", .empty)] }

/-- A result with ordinary `main_args` entries, one of them the
`Empty` sentinel. -/
def wArpFind : Arparma :=
  { source := "c", origin := "", matched := true,
    mainArgs := [("e", .empty), ("x", .int 9)] }

def wTarget : Target :=
  { params := ["a", "b"],
    fn := fun kvs => .int ((dget kvs "a").elim 0 fun v =>
      match v with | .int n => n | _ => 0) }

def wArpCall : Arparma :=
  { source := "cmd", origin := "raw", matched := true,
    mainArgs := [("a", .int 7), ("c", .int 1)] }

def bCancel : Behavior := .mk [] fun _ => .cancelled

def bOut : Behavior := .mk [] fun _ => .outBounds "limit"

def bSet : Behavior :=
  .mk [] fun r => .ok { r with mainArgs := dset r.mainArgs "a" (.int 2) }

def wArpEnc : Arparma := { source := "cmd", origin := "raw", matched := true }

/-- A result whose `other_args` is already populated before
`encapsulate_result` runs. -/
def wArpPre : Arparma :=
  { source := "c", origin := "", otherArgs := [("z", .int 1)] }

def wOptNodeA : OptNode := ⟨"--foo", ["--foo", "-f"], 0, [], [" "]⟩

def wOptNodeB : OptNode := ⟨"--bar", ["--bar"], 1, ["perm", "set"], [" "]⟩

def wOptNodeC : OptNode := ⟨"--baz", ["--baz"], 0, ["pp"], [" "]⟩

def wSubNode : SubNode := ⟨"sub", [wOptNodeC], [], [" "], 2, [], 0⟩

def wAnalyser : Analyser := ⟨[], [], [" "], true, true, 0⟩

def wNodes : List TopNode := [.opt wOptNodeA, .opt wOptNodeB, .sub wSubNode]

/-- Two options sharing the alias `-x`, for the `_compile_opts`
invariant. -/
def wOptP1 : OptNode := ⟨"--p1", ["--p1", "-x"], 1, [], [" "]⟩

def wOptP2 : OptNode := ⟨"--p2", ["--p2", "-x"], 2, [], [" "]⟩

def wOptP3 : OptNode := ⟨"--p3", ["-x"], 1, [], [" "]⟩

end Alconna

namespace Alconna

/-! ### Theorems -/

/-- C4: `Arparma.call` raises exactly when `matched` is false; when
matched it invokes the target on the bindings of
`{**all_matched_args, **additional}` whose keys are parameter names of
the target, returning the target's value. -/
theorem call_matched_gate (r : Arparma) (t : Target)
    (extra : List (String × Val)) :
    ((∃ e, r.call t extra = .error e) ↔ r.matched = false) ∧
    (r.matched = false → r.call t extra = .error "RuntimeError") ∧
    (r.matched = true →
      r.call t extra =
        .ok (t.fn ((mergeDict r.allMatchedArgs extra).filter
          fun kv => t.params.contains kv.1))) := by
  cases hm : r.matched <;> simp [Arparma.call, hm]

/-- Witness for `call_matched_gate` at a concrete matched result: the
target receives only its declared parameter `a` (the extra `b` wins
nothing here, `c` is dropped) and its return value comes back. -/
theorem call_matched_gate_witness :
    wArpCall.matched = true ∧
    wArpCall.call wTarget [("b", .int 5)] = .ok (.int 7) :=
  ⟨rfl, ((call_matched_gate wArpCall wTarget [("b", .int 5)]).2.2 rfl).trans
    (by decide)⟩

/-- C3: in the behavior loop of `Arparma.execute`, `BehaveCancelled`
skips the raising behavior and the rest still run; `OutBoundsBehave e`
ends the loop with `self._fail(e)` — a failed result with the same
`_source` and `origin` and `error_info` the raised exception — without
the exception escaping; `execute` is that loop over the flattened
`self.source.behaviors[1:] + behaviors`, and flattening a list of
`requires`-free behaviors is the list itself. -/
theorem execute_cancel_outbounds (s : Arparma) (b : Behavior)
    (post : List Behavior) (e : String) :
    (b.operate s = .cancelled → execLoop s (b :: post) = execLoop s post) ∧
    (b.operate s = .outBounds e →
      execLoop s (b :: post) = s.fail (.outBounds e) ∧
      (execLoop s (b :: post)).matched = false ∧
      (execLoop s (b :: post)).errorInfo = .exc (.outBounds e) ∧
      (execLoop s (b :: post)).source = s.source ∧
      (execLoop s (b :: post)).origin = s.origin) ∧
    (∀ sb bs : List Behavior, sb.drop 1 ++ bs ≠ [] →
      s.execute sb bs = execLoop s (requirementHandlerList (sb.drop 1 ++ bs))) ∧
    (∀ bs : List Behavior, (∀ b' ∈ bs, b'.requires = []) →
      requirementHandlerList bs = bs) := by
  refine ⟨fun h => by simp [execLoop, h], fun h => ?_, fun sb bs hne => ?_, fun bs h => ?_⟩
  · simp [execLoop, h, Arparma.fail]
  · unfold Arparma.execute
    cases hbs : sb.drop 1 ++ bs with
    | nil => exact absurd hbs hne
    | cons x xs => simp
  · induction bs with
    | nil => rfl
    | cons b' tl ih =>
      have hb' : b'.requires = [] := h b' (by simp)
      cases b' with
      | mk rs f =>
        simp only [Behavior.requires] at hb'
        subst hb'
        simp only [requirementHandlerList, requirementHandler]
        rw [ih fun x hx => h x (by simp [hx])]
        rfl

/-- Witness for `execute_cancel_outbounds`: a cancelling behavior is
skipped and the next one still runs; an out-of-bounds behavior yields
the failed result. -/
theorem execute_cancel_outbounds_witness :
    bCancel.operate wArpEnc = .cancelled ∧
    execLoop wArpEnc [bCancel, bSet] = execLoop wArpEnc [bSet] ∧
    bOut.operate wArpEnc = .outBounds "limit" ∧
    execLoop wArpEnc [bOut, bSet] = wArpEnc.fail (.outBounds "limit") :=
  ⟨rfl, (execute_cancel_outbounds wArpEnc bCancel [bSet] "limit").1 rfl,
   rfl, ((execute_cancel_outbounds wArpEnc bOut [bSet] "limit").2.1 rfl).1⟩

/-- C1 counterexample: with both an option and a subcommand literally
named `foo`, `query("foo")` does not raise — the bare-name search hits
the options dict first and returns the option's result. -/
theorem query_shared_name_counterexample :
    dmem wArp.options "foo" = true ∧
    dmem wArp.subcommands "foo" = true ∧
    wArp.query ["foo"] (.val .pynone) = .ok (.optRes wOpt) := by decide

/-- C1 (amended): when `n` names both an option and a subcommand (and
collides with no arg name and no component is literally named
`options`), `query("options.n")` resolves to the option's result and
`query(n)` returns the same option result instead of raising
`AmbiguousQuery`. -/
theorem query_option_over_subcommand (r : Arparma) (n : String)
    (d : QueryResult) (o : OptionResult) (s : SubcommandResult)
    (hn : n ≠ "")
    (hm : dget r.mainArgs n = none) (ho : dget r.otherArgs n = none)
    (hopt : dget r.options n = some o) (_hsub : dget r.subcommands n = some s)
    (hco : dget r.options "options" = none)
    (hcs : dget r.subcommands "options" = none) :
    r.query ["options", n] d = .ok (.optRes o) ∧
    r.query [n] d = .ok (.optRes o) := by
  constructor
  · simp [Arparma.query, Arparma.require, Arparma.componentsMem, dmem,
      hco, hcs, handleOpt, handleOptCore, hopt, QSource.get,
      Endpoint.truthy, hn]
  · simp [Arparma.query, Arparma.require, dmem, hm, ho, hopt,
      QSource.get, Endpoint.truthy, hn]

/-- Witness for `query_option_over_subcommand` on the concrete shared
name `foo`. -/
theorem query_option_over_subcommand_witness :
    wArp.query ["options", "foo"] (.val .pynone) = .ok (.optRes wOpt) ∧
    wArp.query ["foo"] (.val .pynone) = .ok (.optRes wOpt) :=
  query_option_over_subcommand wArp "foo" (.val .pynone) wOpt wSub
    (by decide) (by decide) (by decide) (by decide) (by decide)
    (by decide) (by decide)

/-- C2: the walrus-precedence slip in `_handle_opt`
(`if _end := _parts.pop(0) == "value"` binds the boolean) makes
`query("options.foo.value")` return the default instead of the stored
option value, while the correctly parenthesised subcommand branch
returns the stored subcommand value. -/
theorem query_option_value_walrus :
    wArp2.options = [("foo", ⟨.str "stored", []⟩)] ∧
    wArp2.query ["options", "foo", "value"] (.val .pynone) =
      .ok (.val .pynone) ∧
    wArp2.query ["subcommands", "bar", "value"] (.val .pynone) =
      .ok (.val (.str "sv")) := by decide

/-- C5 counterexample: a value stored under the empty name is found by
the bare-name search, but the empty endpoint is falsy, so the query
returns the whole `main_args` mapping instead of the stored value. -/
theorem query_bare_name_counterexample :
    dget wArpEmptyKey.mainArgs "" = some (.str "v") ∧
    wArpEmptyKey.query [""] (.val .pynone) =
      .ok (.argsMap [("", .str "v")]) := by decide

/-- C5 (amended): for a non-empty, non-reserved single-segment name,
`query` searches `main_args`, `other_args`, `options`, `subcommands`
in that order and returns the first hit, else the default. -/
theorem query_bare_name_order (r : Arparma) (name : String)
    (default : QueryResult) (h0 : name ≠ "")
    (h1 : name ≠ "options") (h2 : name ≠ "subcommands")
    (h3 : name ≠ "main_args") (h4 : name ≠ "other_args")
    (h5 : name ≠ "args") :
    r.query [name] default = .ok (
      match dget r.mainArgs name, dget r.otherArgs name,
        dget r.options name, dget r.subcommands name with
      | some v, _, _, _ => .val v
      | none, some v, _, _ => .val v
      | none, none, some o, _ => .optRes o
      | none, none, none, some s => .subRes s
      | none, none, none, none => default) := by
  cases hma : dget r.mainArgs name with
  | some v =>
    simp [Arparma.query, Arparma.require, dmem, hma, QSource.get,
      Endpoint.truthy, h0]
  | none =>
    cases hoa : dget r.otherArgs name with
    | some v =>
      simp [Arparma.query, Arparma.require, dmem, hma, hoa, QSource.get,
        Endpoint.truthy, h0]
    | none =>
      cases hop : dget r.options name with
      | some o =>
        simp [Arparma.query, Arparma.require, dmem, hma, hoa, hop,
          QSource.get, Endpoint.truthy, h0]
      | none =>
        cases hsu : dget r.subcommands name with
        | some s =>
          simp [Arparma.query, Arparma.require, dmem, hma, hoa, hop, hsu,
            QSource.get, Endpoint.truthy, h0]
        | none =>
          simp [Arparma.query, Arparma.require, dmem, hma, hoa, hop, hsu,
            h1, h2, h3, h4, h5]

/-- Witness for `query_bare_name_order`: `other_args` wins over
`options` once `main_args` misses. -/
theorem query_bare_name_order_witness :
    wArpFind.query ["x"] (.val .pynone) = .ok (.val (.int 9)) :=
  (query_bare_name_order wArpFind "x" (.val .pynone) (by decide) (by decide)
    (by decide) (by decide) (by decide) (by decide)).trans (by decide)

/-- C10 counterexample: a path that exists (the empty name stored in
`main_args`) with stored value `Empty` is reported *present* by
`find`, because the empty endpoint makes the query return the whole
container, which differs from `Empty`. -/
theorem find_empty_key_counterexample :
    dget wArpEmptyVal.mainArgs "" = some .empty ∧
    wArpEmptyVal.find [""] = .ok true := by decide

/-- C10 (amended): `find(path)` is exactly
`query(path, Empty) != Empty` (errors propagate); in particular a
non-empty single-segment name stored in `main_args` with value `Empty`
is reported absent. -/
theorem find_iff_query_nonempty (r : Arparma) :
    (∀ parts res, r.query parts (.val .empty) = .ok res →
      r.find parts = .ok (decide (res ≠ .val .empty))) ∧
    (∀ parts e, r.query parts (.val .empty) = .error e →
      r.find parts = .error e) ∧
    (∀ name, name ≠ "" → dget r.mainArgs name = some .empty →
      r.find [name] = .ok false) := by
  refine ⟨fun parts res h => ?_, fun parts e h => ?_, fun name hn h => ?_⟩
  · simp [Arparma.find, h, Except.map]
  · simp [Arparma.find, h, Except.map]
  · simp [Arparma.find, Arparma.query, Arparma.require, dmem, h,
      QSource.get, Endpoint.truthy, hn, Except.map]

/-- Witness for `find_iff_query_nonempty`: the stored `Empty` under
`e` is reported absent; the stored `9` under `x` is reported present. -/
theorem find_iff_query_nonempty_witness :
    wArpFind.find ["e"] = .ok false ∧
    wArpFind.find ["x"] = .ok true :=
  ⟨(find_iff_query_nonempty wArpFind).2.2 "e" (by decide) (by decide),
   ((find_iff_query_nonempty wArpFind).1 ["x"] (.val (.int 9))
     (by decide)).trans (by decide)⟩

/-- C9 counterexample: `encapsulate_result` accumulates onto the
existing `other_args` (`self.other_args = {**self.other_args,
**v.args}`), so on a result whose `other_args` is already populated the
claimed equality with the union of the passed-in args dicts fails:
flattening no options and no subcommands should give the empty union,
but the stale entry survives. -/
theorem encapsulate_counterexample :
    (wArpPre.encapsulateResult [] [] []).otherArgs = [("z", .int 1)] := by
  decide

/-- C9 (amended): on an Arparma whose `other_args` starts empty (as
the analyser constructs it), `encapsulate_result`
leaves `other_args` equal to the left fold of `{**acc, **args}` over
every option's args, every subcommand's args and every subcommand
option's args in iteration order, and `all_matched_args` is
`{**main_args, **other_args}`. -/
theorem encapsulate_flattens (r : Arparma) (main : List (String × Val))
    (opts : List (String × OptionResult))
    (subs : List (String × SubcommandResult))
    (h : r.otherArgs = []) :
    (r.encapsulateResult main opts subs).otherArgs =
      ((opts.map fun kv => kv.2.args) ++
        (subs.map fun kv =>
          kv.2.args :: kv.2.options.map fun kv2 => kv2.2.args).flatten).foldl
        mergeDict [] ∧
    (r.encapsulateResult main opts subs).allMatchedArgs =
      mergeDict main (r.encapsulateResult main opts subs).otherArgs := by
  have hsub : ∀ (ss : List (String × SubcommandResult))
      (init : List (String × Val)),
      ss.foldl (fun acc kv =>
        kv.2.options.foldl (fun acc2 kv2 => mergeDict acc2 kv2.2.args)
          (mergeDict acc kv.2.args)) init =
      ((ss.map fun kv =>
        kv.2.args :: kv.2.options.map fun kv2 => kv2.2.args).flatten).foldl
        mergeDict init := by
    intro ss
    induction ss with
    | nil => intro init; rfl
    | cons s tl ih =>
      intro init
      simp only [List.map_cons, List.flatten_cons, List.foldl_cons,
        List.foldl_append, List.foldl_map]
      exact ih _
  constructor
  · show (subs.foldl _ (opts.foldl _ r.otherArgs)) = _
    rw [h, List.foldl_append, List.foldl_map, hsub]
  · simp [Arparma.encapsulateResult, Arparma.allMatchedArgs]

/-- Witness for `encapsulate_flattens` at a concrete result: option
args, subcommand args and nested option args are all flattened, later
entries overwriting earlier ones. -/
theorem encapsulate_flattens_witness :
    (wArpEnc.encapsulateResult [("m", .int 0), ("k", .int 5)]
      [("o1", ⟨.bool true, [("k", .int 1), ("a", .int 2)]⟩)]
      [("s1", ⟨.bool true, [("a", .int 3)],
        [("so", ⟨.bool true, [("b", .int 4)]⟩)]⟩)]).otherArgs =
      [("k", .int 1), ("a", .int 3), ("b", .int 4)] :=
  ((encapsulate_flattens wArpEnc [("m", .int 0), ("k", .int 5)]
    [("o1", ⟨.bool true, [("k", .int 1), ("a", .int 2)]⟩)]
    [("s1", ⟨.bool true, [("a", .int 3)],
      [("so", ⟨.bool true, [("b", .int 4)]⟩)]⟩)] rfl).1).trans (by decide)

/-! ### Lemmas for the compiled parameter tables -/

theorem foldl_snd_factor {α β γ : Type} (f : β × γ → α → β × γ)
    (g : γ → α → γ) (hf : ∀ p x, (f p x).2 = g p.2 x) :
    ∀ (l : List α) (p : β × γ), (l.foldl f p).2 = l.foldl g p.2 := by
  intro l
  induction l with
  | nil => intro p; rfl
  | cons x tl ih =>
    intro p
    rw [List.foldl_cons, List.foldl_cons, ih, hf]

theorem processSubCore_snd (s : SubNode) :
    (processSubCore s).2 =
      s.options.foldl (fun m so => max so.requires.length m) 0 := by
  unfold processSubCore
  refine foldl_snd_factor _ _ (fun p x => ?_) s.options (s.subParams, 0)
  by_cases h : x.requires = [] <;> simp [h]

theorem processTop_rl (nOpts : Nat) (st : Analyser × Nat) (n : TopNode) :
    (processTop nOpts st n).1.2 = max n.requires.length st.2 := by
  cases n with
  | opt o =>
    by_cases h : o.requires = [] <;>
      simp [processTop, TopNode.requires, h]
  | sub s =>
    by_cases h : s.requires = [] <;>
      simp [processTop, TopNode.requires, h]

theorem processTop_needMain (nOpts : Nat) (st : Analyser × Nat)
    (n : TopNode) :
    ((processTop nOpts st n).1.1).needMainArgs = st.1.needMainArgs := by
  cases n <;> dsimp only [processTop] <;> split_ifs <;> rfl

theorem processTop_partLen (nOpts : Nat) (st : Analyser × Nat)
    (n : TopNode) :
    ((processTop nOpts st n).1.1).partLen =
      nOpts + (if st.1.needMainArgs then 1 else 0) +
        (processTop nOpts st n).1.2 := by
  cases n <;> dsimp only [processTop] <;> split_ifs <;> rfl

theorem processTop_snd (nOpts : Nat) (st : Analyser × Nat) (n : TopNode) :
    (processTop nOpts st n).2 =
      (match n with
       | .opt o => TopNode.opt o
       | .sub s => TopNode.sub (subAfter s)) := by
  cases n <;> rfl

theorem dppGo_snd (nOpts : Nat) (st : Analyser × Nat)
    (nodes : List TopNode) :
    (dppGo nOpts st nodes).2 = nodes.map
      (fun n => match n with
        | .opt o => TopNode.opt o
        | .sub s => TopNode.sub (subAfter s)) := by
  induction nodes generalizing st with
  | nil => rfl
  | cons n tl ih => simp [dppGo, ih, processTop_snd]

theorem dppGo_needMain (nOpts : Nat) (st : Analyser × Nat)
    (nodes : List TopNode) :
    ((dppGo nOpts st nodes).1.1).needMainArgs = st.1.needMainArgs := by
  induction nodes generalizing st with
  | nil => rfl
  | cons n tl ih =>
    simp only [dppGo]
    rw [ih, processTop_needMain]

theorem dppGo_rl (nOpts : Nat) (st : Analyser × Nat)
    (nodes : List TopNode) :
    (dppGo nOpts st nodes).1.2 =
      nodes.foldl (fun m n => max n.requires.length m) st.2 := by
  induction nodes generalizing st with
  | nil => rfl
  | cons n tl ih =>
    simp only [dppGo, List.foldl_cons]
    rw [ih, processTop_rl]

theorem dppGo_fst_cons (nOpts : Nat) (st : Analyser × Nat)
    (n : TopNode) (rest : List TopNode) :
    (dppGo nOpts st (n :: rest)).1 =
      (dppGo nOpts (processTop nOpts st n).1 rest).1 := rfl

theorem dppGo_partLen (nOpts : Nat) (st : Analyser × Nat)
    (nodes : List TopNode) (hne : nodes ≠ []) :
    ((dppGo nOpts st nodes).1.1).partLen =
      nOpts + (if st.1.needMainArgs then 1 else 0) +
        (dppGo nOpts st nodes).1.2 := by
  induction nodes generalizing st with
  | nil => exact absurd rfl hne
  | cons n tl ih =>
    cases tl with
    | nil =>
      rw [dppGo_fst_cons]
      simp only [dppGo]
      rw [processTop_partLen]
    | cons n2 tl2 =>
      rw [dppGo_fst_cons,
        ih (processTop nOpts st n).1 (by simp), processTop_needMain]

/-- C6: after `default_params_parser`, `part_len` counts the declared
top-level options, one more when main args are needed, plus the longest
top-level requirement chain; and each subcommand's `sub_part_len` is
the analogous bound over its own options, `nargs`, and its options'
requirement chains. -/
theorem part_len_bound (a : Analyser) (nodes : List TopNode)
    (hne : nodes ≠ []) :
    (defaultParamsParser a nodes).1.partLen =
      nodes.length + (if a.needMainArgs then 1 else 0) +
        nodes.foldl (fun m n => max n.requires.length m) 0 ∧
    ∀ n' ∈ (defaultParamsParser a nodes).2, ∀ s' : SubNode,
      n' = TopNode.sub s' →
      s'.subPartLen = s'.options.length +
        (if s'.nargs ≠ 0 then 1 else 0) +
        s'.options.foldl (fun m so => max so.requires.length m) 0 := by
  constructor
  · show ((dppGo nodes.length (a, 0) nodes).1.1).partLen = _
    rw [dppGo_partLen nodes.length (a, 0) nodes hne, dppGo_rl]
  · intro n' hmem s' hs'
    have h2 : n' ∈ nodes.map
        (fun n => match n with
          | .opt o => TopNode.opt o
          | .sub s => TopNode.sub (subAfter s)) := by
      have := dppGo_snd nodes.length (a, 0) nodes
      exact this ▸ hmem
    rcases List.mem_map.mp h2 with ⟨n, _, hn⟩
    cases n with
    | opt o => rw [hs'] at hn; exact absurd hn.symm (by simp)
    | sub s =>
      have hsub : TopNode.sub (subAfter s) = TopNode.sub s' := by
        rw [← hs']; exact hn
      have hs : subAfter s = s' := by injection hsub
      subst hs
      show (subAfter s).subPartLen = _
      have ho : (subAfter s).options = s.options := rfl
      have hg : (subAfter s).nargs = s.nargs := rfl
      rw [ho, hg]
      show s.options.length + (if s.nargs ≠ 0 then 1 else 0) +
        (processSubCore s).2 = _
      rw [processSubCore_snd]

/-- Witness for `part_len_bound` on a three-node command (two options,
one of them with a two-word requirement chain, and a subcommand with
args and one requiring sub-option): `part_len = 3 + 1 + 2` and
`sub_part_len = 1 + 1 + 1`. -/
theorem part_len_bound_witness :
    (defaultParamsParser wAnalyser wNodes).1.partLen = 6 ∧
    (subAfter wSubNode).subPartLen = 3 :=
  ⟨((part_len_bound wAnalyser wNodes (by decide)).1).trans (by decide),
   ((part_len_bound wAnalyser wNodes (by decide)).2
      (TopNode.sub (subAfter wSubNode)) (by decide)
      (subAfter wSubNode) rfl).trans (by decide)⟩

/-! ### Association-list and stable-sort lemmas -/

theorem dget_dset_eq {α : Type} (d : List (String × α)) (k : String)
    (v : α) : dget (dset d k v) k = some v := by
  induction d with
  | nil => simp [dset, dget]
  | cons kv tl ih =>
    by_cases h : kv.1 = k
    · simp [dset, h, dget]
    · simp [dset, h, dget, ih]

theorem dget_dset_ne {α : Type} (d : List (String × α)) (k : String)
    (v : α) (w : String) (h : w ≠ k) :
    dget (dset d k v) w = dget d w := by
  induction d with
  | nil => simp [dset, dget, Ne.symm h]
  | cons kv tl ih =>
    by_cases h2 : kv.1 = k
    · simp [dset, h2, dget, Ne.symm h]
    · by_cases h3 : kv.1 = w <;> simp [dset, h2, dget, h3, h, ih]

theorem dget_append {α : Type} (d e : List (String × α)) (k : String) :
    dget (d ++ e) k =
      match dget d k with
      | some v => some v
      | none => dget e k := by
  induction d with
  | nil => simp [dget]
  | cons kv tl ih =>
    by_cases h : kv.1 = k <;> simp [dget, h, ih]

theorem dget_dsetdefault {α : Type} (d : List (String × α)) (k : String)
    (v : α) (w : String) :
    dget (dsetdefault d k v) w =
      if w = k then some ((dget d k).getD v) else dget d w := by
  unfold dsetdefault dmem
  cases hd : dget d k with
  | some x =>
    simp only [hd, Option.isSome_some, if_true]
    by_cases h : w = k
    · subst h; simp [hd]
    · simp [h]
  | none =>
    simp only [hd, Option.isSome_none, Bool.false_eq_true, if_false]
    rw [dget_append]
    by_cases h : w = k
    · subst h; simp [hd, dget]
    · cases hw : dget d w <;> simp [h, hw, dget, Ne.symm h]

theorem dget_foldl_setdefault {α : Type} (mk : String → α)
    (reqs : List String) (d : List (String × α)) (w : String) :
    dget (reqs.foldl (fun d k => dsetdefault d k (mk k)) d) w =
      if w ∈ reqs then some ((dget d w).getD (mk w)) else dget d w := by
  induction reqs generalizing d with
  | nil => simp
  | cons k tl ih =>
    rw [List.foldl_cons, ih]
    by_cases hk : w = k
    · subst hk
      rw [dget_dsetdefault]
      by_cases ht : w ∈ tl <;> simp [ht]
    · rw [dget_dsetdefault, if_neg hk]
      by_cases ht : w ∈ tl <;> simp [ht, hk]

theorem mem_insertDesc (y o : OptNode) (l : List OptNode) :
    y ∈ insertDesc o l ↔ y = o ∨ y ∈ l := by
  induction l with
  | nil => simp [insertDesc]
  | cons x xs ih =>
    by_cases h : x.priority < o.priority
    · simp [insertDesc, h]
    · simp [insertDesc, h, ih]
      tauto

theorem insertDesc_of_le (o : OptNode) (l : List OptNode)
    (h : ∀ x ∈ l, o.priority ≤ x.priority) :
    insertDesc o l = l ++ [o] := by
  induction l with
  | nil => rfl
  | cons x xs ih =>
    have hx : ¬ x.priority < o.priority :=
      not_lt.mpr (h x (by simp))
    simp only [insertDesc, hx, if_false]
    rw [ih fun y hy => h y (by simp [hy])]
    rfl

theorem insertDesc_pairwise (o : OptNode) (l : List OptNode)
    (h : l.Pairwise fun a b => b.priority ≤ a.priority) :
    (insertDesc o l).Pairwise fun a b => b.priority ≤ a.priority := by
  induction l with
  | nil => simp [insertDesc]
  | cons x xs ih =>
    rcases List.pairwise_cons.mp h with ⟨hx, hxs⟩
    by_cases hlt : x.priority < o.priority
    · simp only [insertDesc, hlt, if_true]
      refine List.pairwise_cons.mpr ⟨?_, h⟩
      intro b hb
      rcases List.mem_cons.mp hb with rfl | hb
      · exact le_of_lt hlt
      · exact le_trans (hx b hb) (le_of_lt hlt)
    · simp only [insertDesc, hlt, if_false]
      refine List.pairwise_cons.mpr ⟨?_, ih hxs⟩
      intro b hb
      rcases (mem_insertDesc b o xs).mp hb with hb | hb
      · subst hb; exact not_lt.mp hlt
      · exact hx b hb

theorem sortDesc_pairwise (l : List OptNode) :
    (sortDesc l).Pairwise fun a b => b.priority ≤ a.priority := by
  suffices h : ∀ (l acc : List OptNode),
      acc.Pairwise (fun a b => b.priority ≤ a.priority) →
      (l.foldl (fun acc x => insertDesc x acc) acc).Pairwise
        fun a b => b.priority ≤ a.priority by
    exact h l [] (by simp)
  intro l
  induction l with
  | nil => intro acc hacc; exact hacc
  | cons x xs ih =>
    intro acc hacc
    exact ih _ (insertDesc_pairwise x acc hacc)

theorem sortDesc_of_pairwise (l : List OptNode)
    (h : l.Pairwise fun a b => b.priority ≤ a.priority) :
    sortDesc l = l := by
  suffices hgen : ∀ (l acc : List OptNode),
      (acc ++ l).Pairwise (fun a b => b.priority ≤ a.priority) →
      l.foldl (fun acc x => insertDesc x acc) acc = acc ++ l by
    have := hgen l [] (by simpa using h)
    simpa using this
  intro l
  induction l with
  | nil => intro acc _; simp
  | cons x xs ih =>
    intro acc hacc
    have hx : ∀ b ∈ acc, x.priority ≤ b.priority := by
      intro b hb
      rcases List.pairwise_append.mp hacc with ⟨_, _, hcross⟩
      exact hcross b hb x (by simp)
    rw [List.foldl_cons, insertDesc_of_le x acc hx,
      ih (acc ++ [x]) (by simpa using hacc)]
    simp

theorem sortDesc_idem (l : List OptNode) :
    sortDesc (sortDesc l) = sortDesc l :=
  sortDesc_of_pairwise _ (sortDesc_pairwise l)

theorem insertDesc_length (o : OptNode) (l : List OptNode) :
    (insertDesc o l).length = l.length + 1 := by
  induction l with
  | nil => rfl
  | cons x xs ih =>
    by_cases h : x.priority < o.priority <;> simp [insertDesc, h, ih]

theorem sortDesc_length (l : List OptNode) :
    (sortDesc l).length = l.length := by
  suffices h : ∀ (l acc : List OptNode),
      (l.foldl (fun acc x => insertDesc x acc) acc).length =
        acc.length + l.length by
    simpa using h l []
  intro l
  induction l with
  | nil => intro acc; simp
  | cons x xs ih =>
    intro acc
    rw [List.foldl_cons, ih, insertDesc_length, List.length_cons]
    omega

theorem sortDesc_eq_nil (l : List OptNode) (h : sortDesc l = []) :
    l = [] := by
  have := sortDesc_length l
  rw [h] at this
  exact List.length_eq_zero.mp this.symm

theorem sortDesc_append_single (l : List OptNode) (o : OptNode) :
    sortDesc (l ++ [o]) = insertDesc o (sortDesc l) := by
  unfold sortDesc
  rw [List.foldl_append]
  rfl

/-! ### Pointwise behaviour of `_compile_opts` -/

theorem dget_compileOptsStep_ne (opt : OptNode)
    (d : List (String × Param)) (al k : String) (h : k ≠ al) :
    dget (compileOptsStep opt d al) k = dget d k := by
  unfold compileOptsStep
  cases hdg : dget d al with
  | none => exact dget_dset_ne d al _ k h
  | some p =>
    cases p with
    | opts li =>
      by_cases hli : li = [] <;>
        simp only [hli, if_true, if_false] <;>
        exact dget_dset_ne d al _ k h
    | sub s2 => exact dget_dset_ne d al _ k h
    | sentence n => exact dget_dset_ne d al _ k h

theorem dget_compileOptsStep_eq (opt : OptNode)
    (d : List (String × Param)) (al : String) :
    dget (compileOptsStep opt d al) al =
      some (.opts (newListFor opt (dget d al))) := by
  unfold compileOptsStep newListFor
  cases hdg : dget d al with
  | none => exact dget_dset_eq d al _
  | some p =>
    cases p with
    | opts li =>
      by_cases hli : li = [] <;>
        simp only [hli, if_true, if_false] <;>
        exact dget_dset_eq d al _
    | sub s2 => exact dget_dset_eq d al _
    | sentence n => exact dget_dset_eq d al _

theorem dget_compileOptsCmd_notmem (opt : OptNode)
    (d : List (String × Param)) (k : String) (h : k ∉ opt.aliases) :
    dget (compileOptsCmd opt d) k = dget d k := by
  unfold compileOptsCmd
  suffices hgen : ∀ (als : List String) (d : List (String × Param)),
      k ∉ als → dget (als.foldl (compileOptsStep opt) d) k = dget d k by
    exact hgen opt.aliases d h
  intro als
  induction als with
  | nil => intro d _; rfl
  | cons a tl ih =>
    intro d hk
    rw [List.foldl_cons, ih _ fun hmem => hk (by simp [hmem]),
      dget_compileOptsStep_ne opt d a k fun he => hk (by simp [he])]

theorem dget_compileOptsCmd (opt : OptNode) (d : List (String × Param))
    (hnd : opt.aliases.Nodup) (k : String) :
    dget (compileOptsCmd opt d) k =
      if k ∈ opt.aliases then some (.opts (newListFor opt (dget d k)))
      else dget d k := by
  unfold compileOptsCmd
  suffices hgen : ∀ (als : List String) (d : List (String × Param)),
      als.Nodup →
      dget (als.foldl (compileOptsStep opt) d) k =
        if k ∈ als then some (.opts (newListFor opt (dget d k)))
        else dget d k by
    exact hgen opt.aliases d hnd
  intro als
  induction als with
  | nil => intro d _; simp
  | cons a tl ih =>
    intro d hnd2
    rcases List.nodup_cons.mp hnd2 with ⟨ha, htl⟩
    rw [List.foldl_cons, ih _ htl]
    by_cases hk : k = a
    · subst hk
      rw [if_neg ha, if_pos (by simp), dget_compileOptsStep_eq]
    · rw [dget_compileOptsStep_ne opt d a k hk]
      by_cases ht : k ∈ tl
      · rw [if_pos ht, if_pos (by simp [ht])]
      · rw [if_neg ht, if_neg (by simp [hk, ht])]

/-- C7: one call of `_compile_opts` preserves the alias-table
invariant: afterwards every alias of the new option (and every alias
previously bound to a list) is bound to exactly the registered options
declaring it, stably sorted by descending priority; every bound list is
sorted. -/
theorem compile_opts_invariant (registered : List OptNode)
    (opt : OptNode) (d : List (String × Param))
    (hnd : opt.aliases.Nodup)
    (hinv : CmdParamsInv registered d) :
    CmdParamsInv (registered ++ [opt]) (compileOptsCmd opt d) ∧
    ∀ al li, dget (compileOptsCmd opt d) al = some (.opts li) →
      li.Pairwise fun a b => b.priority ≤ a.priority := by
  obtain ⟨h1, h2⟩ := hinv
  have hfilter_nil : ∀ al : String,
      (dget d al = none ∨
        (∃ s2, dget d al = some (.sub s2)) ∨
        (∃ n, dget d al = some (.sentence n))) →
      registered.filter (fun o => decide (al ∈ o.aliases)) = [] := by
    intro al hcase
    rw [List.filter_eq_nil_iff]
    intro o ho
    by_contra hdecl
    rcases h1 al ⟨o, ho, by simpa using hdecl⟩ with ⟨li, hli⟩
    rcases hcase with hc | ⟨s2, hc⟩ | ⟨n, hc⟩ <;> rw [hc] at hli <;>
      cases hli
  have hmain : CmdParamsInv (registered ++ [opt]) (compileOptsCmd opt d) := by
    constructor
    · rintro al ⟨o, ho, hal⟩
      rw [dget_compileOptsCmd opt d hnd al]
      by_cases hmem : al ∈ opt.aliases
      · exact ⟨_, by rw [if_pos hmem]⟩
      · rw [if_neg hmem]
        rcases List.mem_append.mp ho with h | h
        · exact h1 al ⟨o, h, hal⟩
        · rw [List.mem_singleton] at h
          subst h
          exact absurd hal hmem
    · intro al li hget
      rw [dget_compileOptsCmd opt d hnd al] at hget
      by_cases hmem : al ∈ opt.aliases
      · rw [if_pos hmem] at hget
        have hfa : (registered ++ [opt]).filter
            (fun o => decide (al ∈ o.aliases)) =
            registered.filter (fun o => decide (al ∈ o.aliases)) ++ [opt] := by
          rw [List.filter_append]
          simp [hmem]
        injection hget with hget2
        injection hget2 with hget3
        rw [← hget3, hfa, sortDesc_append_single]
        cases hdg : dget d al with
        | none =>
          rw [hfilter_nil al (Or.inl hdg)]
          simp [newListFor, sortDesc, insertDesc]
        | some p =>
          cases p with
          | opts li0 =>
            have hli0 := h2 al li0 hdg
            by_cases hnil : li0 = []
            · have : registered.filter (fun o => decide (al ∈ o.aliases)) = [] :=
                sortDesc_eq_nil _ (by rw [← hli0, hnil])
              rw [this]
              simp [newListFor, hdg, hnil, sortDesc, insertDesc]
            · rw [hli0] at hnil ⊢
              simp only [newListFor, hdg, hnil, if_false]
              rw [sortDesc_append_single, sortDesc_idem]
          | sub s2 =>
            rw [hfilter_nil al (Or.inr (Or.inl ⟨s2, hdg⟩))]
            simp [newListFor, hdg, sortDesc, insertDesc]
          | sentence n =>
            rw [hfilter_nil al (Or.inr (Or.inr ⟨n, hdg⟩))]
            simp [newListFor, hdg, sortDesc, insertDesc]
      · rw [if_neg hmem] at hget
        have hfa : (registered ++ [opt]).filter
            (fun o => decide (al ∈ o.aliases)) =
            registered.filter (fun o => decide (al ∈ o.aliases)) := by
          rw [List.filter_append]
          simp [hmem]
        rw [hfa]
        exact h2 al li hget
  refine ⟨hmain, fun al li hget => ?_⟩
  rw [hmain.2 al li hget]
  exact sortDesc_pairwise _

/-- Witness for `compile_opts_invariant`: starting from the empty
table, registering `--p1` (priority 1), `--p2` (priority 2) and `--p3`
(priority 1), all sharing the alias `-x`, keeps the invariant and binds
`-x` to `[--p2, --p1, --p3]` — descending priority, the tie between
`--p1` and `--p3` kept in registration order. -/
theorem compile_opts_invariant_witness :
    CmdParamsInv [wOptP1] (compileOptsCmd wOptP1 []) ∧
    dget (compileOptsCmd wOptP3
        (compileOptsCmd wOptP2 (compileOptsCmd wOptP1 []))) "-x" =
      some (.opts [wOptP2, wOptP1, wOptP3]) := by
  have h0 : CmdParamsInv [] [] := by
    constructor
    · rintro al ⟨o, ho, _⟩
      exact absurd ho (List.not_mem_nil o)
    · intro al li h
      cases h
  refine ⟨(compile_opts_invariant [] wOptP1 [] (by decide) h0).1, by decide⟩

/-! ### Sentence synthesis and `param_ids` lemmas -/

theorem dget_addSentencesCmd (reqs : List String)
    (d : List (String × Param)) (w : String) :
    dget (addSentencesCmd reqs d) w =
      if w ∈ reqs then some ((dget d w).getD (.sentence w))
      else dget d w :=
  dget_foldl_setdefault Param.sentence reqs d w

theorem dget_addSentencesSub (reqs : List String)
    (d : List (String × SubParam)) (w : String) :
    dget (addSentencesSub reqs d) w =
      if w ∈ reqs then some ((dget d w).getD (.sentence w))
      else dget d w :=
  dget_foldl_setdefault SubParam.sentence reqs d w

theorem dget_dset_isSome {α : Type} (d : List (String × α))
    (k : String) (v : α) (w : String) (h : (dget d w).isSome) :
    (dget (dset d k v) w).isSome := by
  by_cases hw : w = k
  · subst hw; rw [dget_dset_eq]; rfl
  · rw [dget_dset_ne d k v w hw]; exact h

theorem dget_compileOptsCmd_isSome (opt : OptNode)
    (d : List (String × Param)) (w : String)
    (h : (dget d w).isSome) :
    (dget (compileOptsCmd opt d) w).isSome := by
  unfold compileOptsCmd
  suffices hgen : ∀ (als : List String) (d : List (String × Param)),
      (dget d w).isSome →
      (dget (als.foldl (compileOptsStep opt) d) w).isSome by
    exact hgen opt.aliases d h
  intro als
  induction als with
  | nil => intro d h; exact h
  | cons a tl ih =>
    intro d h
    rw [List.foldl_cons]
    refine ih _ ?_
    by_cases hw : w = a
    · subst hw; rw [dget_compileOptsStep_eq]; rfl
    · rw [dget_compileOptsStep_ne opt d a w hw]; exact h

theorem dget_addSentencesCmd_isSome (reqs : List String)
    (d : List (String × Param)) (w : String)
    (h : (dget d w).isSome ∨ w ∈ reqs) :
    (dget (addSentencesCmd reqs d) w).isSome := by
  rw [dget_addSentencesCmd]
  by_cases hw : w ∈ reqs
  · simp [hw]
  · rcases h with h | h
    · simpa [hw] using h
    · exact absurd h hw

theorem dget_compileOptsSubStep_ne (opt : OptNode)
    (d : List (String × SubParam)) (al k : String) (h : k ≠ al) :
    dget (compileOptsSubStep opt d al) k = dget d k := by
  unfold compileOptsSubStep
  cases hdg : dget d al with
  | none => exact dget_dset_ne d al _ k h
  | some p =>
    cases p with
    | opts li =>
      by_cases hli : li = [] <;>
        simp only [hli, if_true, if_false] <;>
        exact dget_dset_ne d al _ k h
    | sentence n => exact dget_dset_ne d al _ k h

theorem dget_compileOptsSub_notmem (opt : OptNode)
    (d : List (String × SubParam)) (k : String) (h : k ∉ opt.aliases) :
    dget (compileOptsSub opt d) k = dget d k := by
  unfold compileOptsSub
  suffices hgen : ∀ (als : List String) (d : List (String × SubParam)),
      k ∉ als → dget (als.foldl (compileOptsSubStep opt) d) k = dget d k by
    exact hgen opt.aliases d h
  intro als
  induction als with
  | nil => intro d _; rfl
  | cons a tl ih =>
    intro d hk
    rw [List.foldl_cons, ih _ fun hmem => hk (by simp [hmem]),
      dget_compileOptsSubStep_ne opt d a k fun he => hk (by simp [he])]

theorem dget_compileOptsSubStep_self (opt : OptNode)
    (d : List (String × SubParam)) (al : String) :
    (dget (compileOptsSubStep opt d al) al).isSome := by
  unfold compileOptsSubStep
  cases hdg : dget d al with
  | none => rw [dget_dset_eq]; rfl
  | some p =>
    cases p with
    | opts li =>
      by_cases hli : li = [] <;>
        simp only [hli, if_true, if_false] <;> (rw [dget_dset_eq]; rfl)
    | sentence n => rw [dget_dset_eq]; rfl

theorem dget_compileOptsSub_isSome (opt : OptNode)
    (d : List (String × SubParam)) (w : String)
    (h : (dget d w).isSome) :
    (dget (compileOptsSub opt d) w).isSome := by
  unfold compileOptsSub
  suffices hgen : ∀ (als : List String) (d : List (String × SubParam)),
      (dget d w).isSome →
      (dget (als.foldl (compileOptsSubStep opt) d) w).isSome by
    exact hgen opt.aliases d h
  intro als
  induction als with
  | nil => intro d h; exact h
  | cons a tl ih =>
    intro d h
    rw [List.foldl_cons]
    refine ih _ ?_
    by_cases hw : w = a
    · subst hw; exact dget_compileOptsSubStep_self opt d w
    · rw [dget_compileOptsSubStep_ne opt d a w hw]; exact h

theorem mem_sadd (s : List String) (x w : String) :
    w ∈ sadd s x ↔ w = x ∨ w ∈ s := by
  unfold sadd
  by_cases h : x ∈ s
  · simp only [h, if_true]
    constructor
    · exact Or.inr
    · rintro (rfl | hw)
      · exact h
      · exact hw
  · simp [h]
    tauto

theorem mem_supdate (s : List String) (xs : List String) (w : String) :
    w ∈ supdate s xs ↔ w ∈ s ∨ w ∈ xs := by
  unfold supdate
  induction xs generalizing s with
  | nil => simp
  | cons x tl ih =>
    rw [List.foldl_cons, ih, mem_sadd]
    simp
    tauto

theorem mem_processSubIds (s : SubNode) (ids : List String) (w : String)
    (h : w ∈ ids) : w ∈ processSubIds s ids := by
  unfold processSubIds
  induction s.options generalizing ids with
  | nil => exact h
  | cons so tl ih =>
    rw [List.foldl_cons]
    exact ih _ ((mem_supdate ids so.aliases w).mpr (Or.inl h))

/-! ### `processTop` and `dppGo` effects on the tables -/

theorem processTop_cmdParams (nOpts : Nat) (st : Analyser × Nat)
    (n : TopNode) :
    ((processTop nOpts st n).1.1).commandParams =
      (if n.requires ≠ [] then
        addSentencesCmd n.requires
          (match n with
            | .opt o => compileOptsCmd o st.1.commandParams
            | .sub s =>
              dset st.1.commandParams s.name (.sub (subAfter s)))
      else
        (match n with
          | .opt o => compileOptsCmd o st.1.commandParams
          | .sub s =>
            dset st.1.commandParams s.name (.sub (subAfter s)))) := by
  cases n <;> dsimp only [processTop] <;> split_ifs <;> rfl

theorem processTop_paramIds (nOpts : Nat) (st : Analyser × Nat)
    (n : TopNode) :
    ((processTop nOpts st n).1.1).paramIds =
      (if n.requires ≠ [] then
        supdate
          (match n with
            | .opt o => supdate st.1.paramIds o.aliases
            | .sub s => processSubIds s (sadd st.1.paramIds s.name))
          n.requires
      else
        (match n with
          | .opt o => supdate st.1.paramIds o.aliases
          | .sub s => processSubIds s (sadd st.1.paramIds s.name))) := by
  cases n <;> dsimp only [processTop] <;> split_ifs <;> rfl

theorem processTop_paramIds_mono (nOpts : Nat) (st : Analyser × Nat)
    (n : TopNode) (w : String) (h : w ∈ st.1.paramIds) :
    w ∈ ((processTop nOpts st n).1.1).paramIds := by
  rw [processTop_paramIds]
  have hbase : w ∈ (match n with
      | TopNode.opt o => supdate st.1.paramIds o.aliases
      | TopNode.sub s => processSubIds s (sadd st.1.paramIds s.name)) := by
    cases n with
    | opt o => exact (mem_supdate _ _ _).mpr (Or.inl h)
    | sub s => exact mem_processSubIds _ _ _ ((mem_sadd _ _ _).mpr (Or.inr h))
  split
  · exact (mem_supdate _ _ _).mpr (Or.inl hbase)
  · exact hbase

theorem processTop_paramIds_requires (nOpts : Nat) (st : Analyser × Nat)
    (n : TopNode) (w : String) (h : w ∈ n.requires) :
    w ∈ ((processTop nOpts st n).1.1).paramIds := by
  rw [processTop_paramIds,
    if_pos (by intro he; rw [he] at h; cases h)]
  exact (mem_supdate _ _ _).mpr (Or.inr h)

theorem processTop_cmdParams_isSome (nOpts : Nat) (st : Analyser × Nat)
    (n : TopNode) (w : String)
    (h : (dget st.1.commandParams w).isSome) :
    (dget ((processTop nOpts st n).1.1).commandParams w).isSome := by
  rw [processTop_cmdParams]
  have hbase : (dget (match n with
      | TopNode.opt o => compileOptsCmd o st.1.commandParams
      | TopNode.sub s =>
        dset st.1.commandParams s.name (.sub (subAfter s))) w).isSome := by
    cases n with
    | opt o => exact dget_compileOptsCmd_isSome o _ w h
    | sub s => exact dget_dset_isSome _ _ _ w h
  split
  · exact dget_addSentencesCmd_isSome _ _ _ (Or.inl hbase)
  · exact hbase

theorem processTop_cmdParams_requires (nOpts : Nat) (st : Analyser × Nat)
    (n : TopNode) (w : String) (h : w ∈ n.requires) :
    (dget ((processTop nOpts st n).1.1).commandParams w).isSome := by
  rw [processTop_cmdParams,
    if_pos (by intro he; rw [he] at h; cases h)]
  exact dget_addSentencesCmd_isSome _ _ _ (Or.inr h)

theorem processTop_cmdParams_unclaimed (nOpts : Nat)
    (st : Analyser × Nat) (n : TopNode) (w : String)
    (hn : notClaimedBy w n) :
    dget ((processTop nOpts st n).1.1).commandParams w =
      if w ∈ n.requires then
        some ((dget st.1.commandParams w).getD (.sentence w))
      else dget st.1.commandParams w := by
  rw [processTop_cmdParams]
  have hbase : dget (match n with
      | TopNode.opt o => compileOptsCmd o st.1.commandParams
      | TopNode.sub s =>
        dset st.1.commandParams s.name (.sub (subAfter s))) w =
      dget st.1.commandParams w := by
    cases n with
    | opt o => exact dget_compileOptsCmd_notmem o _ w hn
    | sub s => exact dget_dset_ne _ _ _ w hn
  by_cases hr : n.requires = []
  · rw [if_neg (by simp [hr]), hbase, if_neg (by simp [hr])]
  · rw [if_pos (by simp [hr]), dget_addSentencesCmd, hbase]

theorem dppGo_paramIds_mono (nOpts : Nat) (st : Analyser × Nat)
    (nodes : List TopNode) (w : String) (h : w ∈ st.1.paramIds) :
    w ∈ ((dppGo nOpts st nodes).1.1).paramIds := by
  induction nodes generalizing st with
  | nil => exact h
  | cons n tl ih =>
    rw [dppGo_fst_cons]
    exact ih _ (processTop_paramIds_mono nOpts st n w h)

theorem dppGo_cmdParams_mono (nOpts : Nat) (st : Analyser × Nat)
    (nodes : List TopNode) (w : String)
    (h : (dget st.1.commandParams w).isSome) :
    (dget ((dppGo nOpts st nodes).1.1).commandParams w).isSome := by
  induction nodes generalizing st with
  | nil => exact h
  | cons n tl ih =>
    rw [dppGo_fst_cons]
    exact ih _ (processTop_cmdParams_isSome nOpts st n w h)

theorem dppGo_requires_paramIds (nOpts : Nat) (st : Analyser × Nat)
    (nodes : List TopNode) (n : TopNode) (hn : n ∈ nodes) (w : String)
    (hw : w ∈ n.requires) :
    w ∈ ((dppGo nOpts st nodes).1.1).paramIds := by
  induction nodes generalizing st with
  | nil => cases hn
  | cons m tl ih =>
    rw [dppGo_fst_cons]
    rcases List.mem_cons.mp hn with rfl | hmem
    · exact dppGo_paramIds_mono nOpts _ tl w
        (processTop_paramIds_requires nOpts st n w hw)
    · exact ih _ hmem

theorem dppGo_requires_cmdParams (nOpts : Nat) (st : Analyser × Nat)
    (nodes : List TopNode) (n : TopNode) (hn : n ∈ nodes) (w : String)
    (hw : w ∈ n.requires) :
    (dget ((dppGo nOpts st nodes).1.1).commandParams w).isSome := by
  induction nodes generalizing st with
  | nil => cases hn
  | cons m tl ih =>
    rw [dppGo_fst_cons]
    rcases List.mem_cons.mp hn with rfl | hmem
    · exact dppGo_cmdParams_mono nOpts _ tl w
        (processTop_cmdParams_requires nOpts st n w hw)
    · exact ih _ hmem

theorem dppGo_cmdParams_unclaimed (nOpts : Nat) (st : Analyser × Nat)
    (nodes : List TopNode) (w : String)
    (hcl : ∀ n ∈ nodes, notClaimedBy w n) :
    dget ((dppGo nOpts st nodes).1.1).commandParams w =
      if ∃ n ∈ nodes, w ∈ n.requires then
        some ((dget st.1.commandParams w).getD (.sentence w))
      else dget st.1.commandParams w := by
  induction nodes generalizing st with
  | nil => simp [dppGo]
  | cons n tl ih =>
    rw [dppGo_fst_cons, ih _ fun m hm => hcl m (by simp [hm]),
      processTop_cmdParams_unclaimed nOpts st n w (hcl n (by simp))]
    by_cases h1 : w ∈ n.requires
    · have hex : ∃ m ∈ n :: tl, w ∈ m.requires := ⟨n, by simp, h1⟩
      by_cases h2 : ∃ m ∈ tl, w ∈ m.requires
      · simp [h1, h2, hex]
      · simp [h1, h2, hex]
    · by_cases h2 : ∃ m ∈ tl, w ∈ m.requires
      · have hex : ∃ m ∈ n :: tl, w ∈ m.requires := by
          rcases h2 with ⟨m, hm, hwm⟩
          exact ⟨m, by simp [hm], hwm⟩
        simp [h1, h2, hex]
      · have hex : ¬ ∃ m ∈ n :: tl, w ∈ m.requires := by
          rintro ⟨m, hm, hwm⟩
          rcases List.mem_cons.mp hm with rfl | hm2
          · exact h1 hwm
          · exact h2 ⟨m, hm2, hwm⟩
        simp [h1, h2, hex]

/-! ### The `sub_params` table after the inner loop -/

theorem foldl_fst_factor {α β γ : Type} (f : β × γ → α → β × γ)
    (g : β → α → β) (hf : ∀ p x, (f p x).1 = g p.1 x) :
    ∀ (l : List α) (p : β × γ), (l.foldl f p).1 = l.foldl g p.1 := by
  intro l
  induction l with
  | nil => intro p; rfl
  | cons x tl ih =>
    intro p
    rw [List.foldl_cons, List.foldl_cons, ih, hf]

theorem processSubCore_fst (s : SubNode) :
    (processSubCore s).1 = s.options.foldl subStep s.subParams := by
  unfold processSubCore
  refine foldl_fst_factor _ _ (fun p x => ?_) s.options (s.subParams, 0)
  unfold subStep
  by_cases h : x.requires = [] <;> simp [h]

theorem dget_addSentencesSub_isSome (reqs : List String)
    (d : List (String × SubParam)) (w : String)
    (h : (dget d w).isSome ∨ w ∈ reqs) :
    (dget (addSentencesSub reqs d) w).isSome := by
  rw [dget_addSentencesSub]
  by_cases hw : w ∈ reqs
  · simp [hw]
  · rcases h with h | h
    · simpa [hw] using h
    · exact absurd h hw

theorem dget_subStep_isSome (d : List (String × SubParam)) (so : OptNode)
    (w : String) (h : (dget d w).isSome) :
    (dget (subStep d so) w).isSome := by
  unfold subStep
  split
  · exact dget_addSentencesSub_isSome _ _ _
      (Or.inl (dget_compileOptsSub_isSome so d w h))
  · exact dget_compileOptsSub_isSome so d w h

theorem dget_subStep_requires (d : List (String × SubParam))
    (so : OptNode) (w : String) (h : w ∈ so.requires) :
    (dget (subStep d so) w).isSome := by
  unfold subStep
  rw [if_pos (by intro he; rw [he] at h; cases h)]
  exact dget_addSentencesSub_isSome _ _ _ (Or.inr h)

theorem dget_subStep_unclaimed (d : List (String × SubParam))
    (so : OptNode) (w : String) (hn : w ∉ so.aliases) :
    dget (subStep d so) w =
      if w ∈ so.requires then some ((dget d w).getD (.sentence w))
      else dget d w := by
  unfold subStep
  by_cases hr : so.requires = []
  · rw [if_neg (by simp [hr]), dget_compileOptsSub_notmem so d w hn,
      if_neg (by simp [hr])]
  · rw [if_pos (by simp [hr]), dget_addSentencesSub,
      dget_compileOptsSub_notmem so d w hn]

theorem subfold_isSome (w : String) (l : List OptNode)
    (d : List (String × SubParam)) (h : (dget d w).isSome) :
    (dget (l.foldl subStep d) w).isSome := by
  induction l generalizing d with
  | nil => exact h
  | cons so tl ih =>
    rw [List.foldl_cons]
    exact ih _ (dget_subStep_isSome d so w h)

theorem subfold_requires (w : String) (l : List OptNode)
    (d : List (String × SubParam)) (so : OptNode) (hso : so ∈ l)
    (hw : w ∈ so.requires) :
    (dget (l.foldl subStep d) w).isSome := by
  induction l generalizing d with
  | nil => cases hso
  | cons m tl ih =>
    rw [List.foldl_cons]
    rcases List.mem_cons.mp hso with rfl | hmem
    · exact subfold_isSome w tl _ (dget_subStep_requires d so w hw)
    · exact ih _ hmem

theorem subfold_unclaimed (w : String) (l : List OptNode)
    (d : List (String × SubParam)) (hcl : ∀ so ∈ l, w ∉ so.aliases) :
    dget (l.foldl subStep d) w =
      if ∃ so ∈ l, w ∈ so.requires then
        some ((dget d w).getD (.sentence w))
      else dget d w := by
  induction l generalizing d with
  | nil => simp
  | cons so tl ih =>
    rw [List.foldl_cons, ih _ fun m hm => hcl m (by simp [hm]),
      dget_subStep_unclaimed d so w (hcl so (by simp))]
    by_cases h1 : w ∈ so.requires
    · have hex : ∃ m ∈ so :: tl, w ∈ m.requires := ⟨so, by simp, h1⟩
      by_cases h2 : ∃ m ∈ tl, w ∈ m.requires
      · simp [h1, h2, hex]
      · simp [h1, h2, hex]
    · by_cases h2 : ∃ m ∈ tl, w ∈ m.requires
      · have hex : ∃ m ∈ so :: tl, w ∈ m.requires := by
          rcases h2 with ⟨m, hm, hwm⟩
          exact ⟨m, by simp [hm], hwm⟩
        simp [h1, h2, hex]
      · have hex : ¬ ∃ m ∈ so :: tl, w ∈ m.requires := by
          rintro ⟨m, hm, hwm⟩
          rcases List.mem_cons.mp hm with rfl | hm2
          · exact h1 hwm
          · exact h2 ⟨m, hm2, hwm⟩
        simp [h1, h2, hex]

/-- C8: after `default_params_parser`, every requirement word of a
top-level node is in `param_ids` and is bound in `command_params`; a
requirement word that collides with no prior entry, option alias or
subcommand name is bound to `Sentence(name=w)`.  Likewise each
requirement word of a subcommand's option is bound in that
subcommand's compiled `sub_params`, to a `Sentence` when it collides
with nothing. -/
theorem requires_sentences (a : Analyser) (nodes : List TopNode) :
    (∀ n ∈ nodes, ∀ w ∈ n.requires,
      w ∈ (defaultParamsParser a nodes).1.paramIds ∧
      (dget (defaultParamsParser a nodes).1.commandParams w).isSome) ∧
    (∀ w : String, dget a.commandParams w = none →
      (∀ n ∈ nodes, notClaimedBy w n) →
      (∃ n ∈ nodes, w ∈ n.requires) →
      dget (defaultParamsParser a nodes).1.commandParams w =
        some (.sentence w)) ∧
    (∀ s : SubNode, ∀ so ∈ s.options, ∀ w ∈ so.requires,
      (dget (subAfter s).subParams w).isSome) ∧
    (∀ s : SubNode, ∀ w : String, dget s.subParams w = none →
      (∀ so ∈ s.options, w ∉ so.aliases) →
      (∃ so ∈ s.options, w ∈ so.requires) →
      dget (subAfter s).subParams w = some (.sentence w)) := by
  refine ⟨fun n hn w hw => ⟨?_, ?_⟩, fun w h0 hcl hex => ?_,
    fun s so hso w hw => ?_, fun s w h0 hcl hex => ?_⟩
  · exact dppGo_requires_paramIds nodes.length (a, 0) nodes n hn w hw
  · exact dppGo_requires_cmdParams nodes.length (a, 0) nodes n hn w hw
  · rw [show (defaultParamsParser a nodes).1 =
        (dppGo nodes.length (a, 0) nodes).1.1 from rfl,
      dppGo_cmdParams_unclaimed nodes.length (a, 0) nodes w hcl,
      if_pos hex]
    simp [h0]
  · rw [show (subAfter s).subParams = (processSubCore s).1 from rfl,
      processSubCore_fst]
    exact subfold_requires w s.options s.subParams so hso hw
  · rw [show (subAfter s).subParams = (processSubCore s).1 from rfl,
      processSubCore_fst, subfold_unclaimed w s.options s.subParams hcl,
      if_pos hex]
    simp [h0]

/-- Witness for `requires_sentences` on the concrete command: the
requirement words `perm`/`set` of `--bar` land in `param_ids` and as
sentences in `command_params`; the sub-option requirement `pp` lands as
a sentence in the subcommand's `sub_params`. -/
theorem requires_sentences_witness :
    "perm" ∈ (defaultParamsParser wAnalyser wNodes).1.paramIds ∧
    dget (defaultParamsParser wAnalyser wNodes).1.commandParams "perm" =
      some (.sentence "perm") ∧
    dget (subAfter wSubNode).subParams "pp" = some (.sentence "pp") :=
  ⟨((requires_sentences wAnalyser wNodes).1 (.opt wOptNodeB) (by decide)
      "perm" (by decide)).1,
   (requires_sentences wAnalyser wNodes).2.1 "perm" (by decide) (by decide)
     ⟨.opt wOptNodeB, by decide, by decide⟩,
   (requires_sentences wAnalyser wNodes).2.2.2 wSubNode "pp" (by decide)
     (by decide) ⟨wOptNodeC, by decide, by decide⟩⟩

end Alconna
